import Mathlib

/-!
Verification of the polyline blob decoder of
`hypermill_nctools_inventory_exporter` (files `geometry_polyline.py`,
`scripts/inspect_polyline.py`, `nctool_plot.py`).

Bytes are modelled as lists of naturals, Python integers as `Int`,
Python float values by their IEEE-754 bit patterns (a `Nat` assembled
from the raw bytes in the relevant endianness), and fallible Python code
by `Except`/`Option`.  Heuristic scores are modelled in `ℚ` with the
exact ratios the source computes.
-/

namespace HypermillPolyline

/-- Byte strings: each element is one byte of the blob. -/
abbrev Bytes := List Nat

/-- Python slice `xs[i:j]` (negative indices count from the end,
out-of-range indices clamp). -/
def pySlice (xs : List α) (i j : Int) : List α :=
  let n : Int := xs.length
  let lo : Nat := if i < 0 then (n + i).toNat else min i.toNat xs.length
  let hi : Nat := if j < 0 then (n + j).toNat else min j.toNat xs.length
  (xs.take hi).drop lo

/-- Embedding of the u16 read in the source helper, a little-endian
unsigned 16-bit value from the first two bytes;
`none` when fewer than two bytes are available (Python raises
`struct.error` there). -/
def u16_le : Bytes → Option Nat
  | b0 :: b1 :: _ => some (b0 + 256 * b1)
  | _ => none

/-- Assemble a little-endian word (the IEEE bit pattern) from a byte chunk. -/
def word_le (chunk : Bytes) : Nat :=
  chunk.foldr (fun b acc => b + 256 * acc) 0

/-- Assemble a big-endian word (the IEEE bit pattern) from a byte chunk. -/
def word_be (chunk : Bytes) : Nat :=
  chunk.foldl (fun acc b => 256 * acc + b) 0

/-- Twos-complement reading of a 32-bit pattern, as the signed i format
character of the struct module does. -/
def toSigned32 (w : Nat) : Int :=
  if w < 2 ^ 31 then (w : Int) else (w : Int) - 2 ^ 32

/-- Embedding of the f64 view helper of the source: every whole 8-byte element of the
payload, as IEEE-754 float64 bit patterns in the requested endianness. -/
def try_unpack_f64 (payload : Bytes) (big : Bool) : List Nat :=
  let n := (payload.length / 8) * 8
  if n ≤ 0 then []
  else (List.range (n / 8)).map fun k =>
    (if big then word_be else word_le) ((payload.drop (8 * k)).take 8)

/-- Embedding of the f32 view helper: whole 4-byte little-endian float32 bit
patterns. -/
def try_unpack_f32_le (payload : Bytes) : List Nat :=
  let n := (payload.length / 4) * 4
  if n ≤ 0 then []
  else (List.range (n / 4)).map fun k => word_le ((payload.drop (4 * k)).take 4)

/-- Embedding of the i32 view helper: whole 4-byte little-endian signed int32
values. -/
def try_unpack_i32_le (payload : Bytes) : List Int :=
  let n := (payload.length / 4) * 4
  if n ≤ 0 then []
  else (List.range (n / 4)).map fun k =>
    toSigned32 (word_le ((payload.drop (4 * k)).take 4))

/-- Embedding of the PolylineFormat dataclass. -/
structure PolylineFormat where
  header_len : Int
  record_len : Int
deriving DecidableEq, Repr

/-- Embedding of the PolylineRecord dataclass; the four numeric views hold bit patterns
(`f64_le`, `f64_be`, `f32_le`) resp. signed values (`i32_le`). -/
structure PolylineRecord where
  index : Nat
  offset : Int
  rec_type_u16 : Nat
  payload : Bytes
  f64_le : List Nat
  f64_be : List Nat
  f32_le : List Nat
  i32_le : List Int
deriving DecidableEq, Repr

/-- The exceptions `parse_polyline` can raise: `ValueError` (the spec's
`FormatError`) with its message, or `struct.error` from `_u16_le`. -/
inductive ParseError where
  | formatError (msg : String)
  | structError
deriving DecidableEq, Repr

instance instDecEqExceptPE {α : Type} [DecidableEq α] :
    DecidableEq (Except ParseError α) := fun a b =>
  match a, b with
  | Except.error e, Except.error f =>
    if h : e = f then isTrue (by rw [h]) else
      isFalse (by intro hh; cases hh; exact h rfl)
  | Except.error _, Except.ok _ => isFalse (by intro hh; cases hh)
  | Except.ok _, Except.error _ => isFalse (by intro hh; cases hh)
  | Except.ok a, Except.ok b =>
    if h : a = b then isTrue (by rw [h]) else
      isFalse (by intro hh; cases hh; exact h rfl)

/-- Body of `parse_polyline`'s loop for index `i`: slice the record chunk,
read the type tag, keep the payload and its four views. -/
def decodeRecord (blob : Bytes) (fmt : PolylineFormat) (i : Nat) :
    Except ParseError PolylineRecord :=
  let off : Int := fmt.header_len + (i : Int) * fmt.record_len
  let chunk := pySlice blob off (off + fmt.record_len)
  match u16_le (chunk.take 2) with
  | none => Except.error ParseError.structError
  | some t =>
    Except.ok
      { index := i, offset := off, rec_type_u16 := t, payload := chunk.drop 2,
        f64_le := try_unpack_f64 (chunk.drop 2) false,
        f64_be := try_unpack_f64 (chunk.drop 2) true,
        f32_le := try_unpack_f32_le (chunk.drop 2),
        i32_le := try_unpack_i32_le (chunk.drop 2) }

/-- The record `decodeRecord` produces when the chunk has at least two
bytes. -/
def mkRecord (blob : Bytes) (fmt : PolylineFormat) (i : Nat) : PolylineRecord :=
  let off : Int := fmt.header_len + (i : Int) * fmt.record_len
  let chunk := pySlice blob off (off + fmt.record_len)
  { index := i, offset := off,
    rec_type_u16 := chunk.getD 0 0 + 256 * chunk.getD 1 0,
    payload := chunk.drop 2,
    f64_le := try_unpack_f64 (chunk.drop 2) false,
    f64_be := try_unpack_f64 (chunk.drop 2) true,
    f32_le := try_unpack_f32_le (chunk.drop 2),
    i32_le := try_unpack_i32_le (chunk.drop 2) }

/-- Record loop of `parse_polyline`, decoding `k` records starting
at index `i` and stopping at the first failure. -/
def decodeFrom (blob : Bytes) (fmt : PolylineFormat) :
    Nat → Nat → Except ParseError (List PolylineRecord)
  | _, 0 => Except.ok []
  | i, Nat.succ k =>
    match decodeRecord blob fmt i with
    | Except.error e => Except.error e
    | Except.ok r =>
      match decodeFrom blob fmt (i + 1) k with
      | Except.error e => Except.error e
      | Except.ok rest => Except.ok (r :: rest)

/-- Embedding of `parse_polyline`. -/
def parse_polyline (blob : Bytes) (fmt : PolylineFormat) :
    Except ParseError (Bytes × List PolylineRecord) :=
  if fmt.header_len < 0 ∨ fmt.record_len ≤ 0 then
    Except.error (ParseError.formatError "invalid format")
  else if (blob.length : Int) < fmt.header_len then
    Except.error (ParseError.formatError "blob shorter than header")
  else
    let body := pySlice blob fmt.header_len (blob.length)
    if (body.length : Int) % fmt.record_len ≠ 0 then
      Except.error (ParseError.formatError "body not divisible by record_len")
    else
      match decodeFrom blob fmt 0 (body.length / fmt.record_len.toNat) with
      | Except.error e => Except.error e
      | Except.ok recs => Except.ok (pySlice blob 0 fmt.header_len, recs)

/-- The heuristic score of `guess_polyline_format` for a decoded record
list, in exact rational arithmetic:
`small_ratio * 1.0 + (1.0 - uniq_ratio) * 0.6 + head_bias * 0.2`. -/
def scoreOf (recs : List PolylineRecord) : ℚ :=
  let types := recs.map fun r => r.rec_type_u16
  let small_ratio : ℚ :=
    (types.countP (fun t => decide (t ≤ 1024)) : ℚ) / (types.length : ℚ)
  let uniq : ℚ := (types.dedup.length : ℚ)
  let uniq_ratio : ℚ := uniq / (types.length : ℚ)
  let head := types.take (min 10 types.length)
  let head_bias : ℚ :=
    if head.length = 0 then 0
    else ((head.dedup.map fun x => head.count x).foldl max 0 : ℚ) /
      (head.length : ℚ)
  small_ratio * 1 + (1 - uniq_ratio) * (6 / 10 : ℚ) + head_bias * (2 / 10 : ℚ)

/-- One iteration of `guess_polyline_format`'s inner loop: `none` when the
candidate `(h, rlen)` is skipped, otherwise its score and format. -/
def candScore (blob : Bytes) (h rlen : Int) : Option (ℚ × PolylineFormat) :=
  if h < 0 ∨ (blob.length : Int) ≤ h then none
  else
    let body_len : Int := (blob.length : Int) - h
    if rlen ≤ 2 then none
    else if body_len ≤ 0 ∨ body_len % rlen ≠ 0 then none
    else
      match parse_polyline blob ⟨h, rlen⟩ with
      | Except.error _ => none
      | Except.ok (_, recs) =>
        if recs.isEmpty then none
        else some (scoreOf recs, ⟨h, rlen⟩)

/-- Update of the running best: replace it only when the new score is
strictly greater (or when there is no best yet). -/
def updateBest (best : Option (ℚ × PolylineFormat))
    (c : Option (ℚ × PolylineFormat)) : Option (ℚ × PolylineFormat) :=
  match c, best with
  | none, b => b
  | some sc, none => some sc
  | some sc, some b => if sc.1 > b.1 then some sc else some b

/-- The candidate pairs in iteration order: headers outer, record lengths
inner. -/
def candPairs (hs rs : List Int) : List (Int × Int) :=
  hs.flatMap fun h => rs.map fun r => (h, r)

/-- Embedding of `guess_polyline_format`. -/
def guess_polyline_format (blob : Bytes) (hs rs : List Int) :
    Option PolylineFormat :=
  ((candPairs hs rs).foldl
    (fun b p => updateBest b (candScore blob p.1 p.2)) none).map Prod.snd

/-- The candidates that survive all of the guesser's skip conditions, with
their scores, in iteration order. -/
def survivorsOf (blob : Bytes) (hs rs : List Int) :
    List (ℚ × PolylineFormat) :=
  (candPairs hs rs).filterMap fun p => candScore blob p.1 p.2

/-- Count increment for tag `t` on an insertion-ordered association
list. -/
def bumpCount : List (Nat × Nat) → Nat → List (Nat × Nat)
  | [], t => [(t, 1)]
  | (k, v) :: rest, t =>
    if k = t then (k, v + 1) :: rest else (k, v) :: bumpCount rest t

/-- The sort key of `summarize_record_types` (negated count, then tag),
as a relation: larger count first, ties by smaller tag first. -/
def summLe (a b : Nat × Nat) : Prop :=
  b.2 < a.2 ∨ (a.2 = b.2 ∧ a.1 ≤ b.1)

instance : DecidableRel summLe := fun a b => by
  unfold summLe; exact inferInstance

instance : IsTotal (Nat × Nat) summLe :=
  ⟨by intro a b; unfold summLe; omega⟩

instance : IsTrans (Nat × Nat) summLe :=
  ⟨by intro a b c hab hbc; unfold summLe at *; omega⟩

/-- Embedding of `summarize_record_types`: histogram of type tags sorted by
descending count, ties by ascending tag. -/
def summarize_record_types (records : List PolylineRecord) :
    List (Nat × Nat) :=
  List.insertionSort summLe
    (records.foldl (fun c r => bumpCount c r.rec_type_u16) [])

/-- Number of iterations of a Python range from 0 to stop with positive step. -/
def pyRangeLen (stop step : Nat) : Nat := (stop + step - 1) / step

/-- The chunk `b[i:i+width]` of row `k` of `hexdump`. -/
def hexChunk (b : Bytes) (w k : Nat) : Bytes :=
  pySlice b (k * w : Nat) ((k * w : Nat) + (w : Nat))

/-- Lowercase-hex rendering of a natural, as the Python x format does. -/
def hexStr (n : Nat) : String := String.mk (Nat.toDigits 16 n)

/-- Zero-pad on the left to `w` characters, for zero-padded hex fields. -/
def padLeft0 (w : Nat) (s : String) : String :=
  String.mk (List.replicate (w - s.length) '0') ++ s

/-- Space-pad on the right to `w` characters, for left-aligned fields. -/
def padRightSpace (w : Nat) (s : String) : String :=
  s ++ String.mk (List.replicate (w - s.length) ' ')

/-- Two-digit lowercase hex of one byte. -/
def hexByte (x : Nat) : String := padLeft0 2 (hexStr x)

/-- Printable ASCII rendering of a byte: the character itself when its
code is between 32 and 126, otherwise a dot. -/
def asciiChar (x : Nat) : Char :=
  if 32 ≤ x ∧ x ≤ 126 then Char.ofNat x else '.'

/-- One `hexdump` output row for byte offset `i` and chunk `chunk`. -/
def hexLine (w i : Nat) (chunk : Bytes) : String :=
  padLeft0 8 (hexStr i) ++ "  " ++
    padRightSpace (w * 3) (String.intercalate " " (chunk.map hexByte)) ++
    "  " ++ String.mk (chunk.map asciiChar)

/-- The truncation note appended when the data was cut off; it carries
the true total length. -/
def truncNote (n : Nat) : String := "... (" ++ toString n ++ " bytes total)"

/-- Embedding of `hexdump`; `width = 0` reproduces the
`ValueError` Python's `range` raises on a zero step. -/
def hexdump (data : Bytes) (width max_bytes : Int) : Except String String :=
  let b := pySlice data 0 max_bytes
  if width = 0 then Except.error "range arg 3 must not be zero"
  else
    let idxs : List Nat :=
      if width < 0 then [] else List.range (pyRangeLen b.length width.toNat)
    let rows := idxs.map fun k =>
      hexLine width.toNat (k * width.toNat) (hexChunk b width.toNat k)
    let lines :=
      if (data.length : Int) > max_bytes then rows ++ [truncNote data.length]
      else rows
    Except.ok (String.intercalate "\n" lines)

/-- Equality of a float64 bit pattern with `0.0` under Python `==`
(`+0.0` or `-0.0`). -/
def f64_eq_zero (w : Nat) : Bool := w == 0 || w == 2 ^ 63

/-- Skip condition for the type filter: an only-type is set and the
record tag differs from it. -/
def onlyTypeSkip (only_type : Option Nat) (t : Nat) : Bool :=
  match only_type with
  | some v => t != v
  | none => false

/-- Stop condition for the point limit: a limit is set and the output
has reached it. -/
def maxReached (max_points : Option Int) (n : Nat) : Bool :=
  match max_points with
  | some m => decide (m ≤ (n : Int))
  | none => false

/-- Loop of the point extractor in the inspect script,
accumulating into `pts`. -/
def extractGo (only_type : Option Nat) (stop_at_zero : Bool)
    (max_points : Option Int) :
    List PolylineRecord → List (Nat × Nat × Nat) → List (Nat × Nat × Nat)
  | [], pts => pts
  | r :: rest, pts =>
    if onlyTypeSkip only_type r.rec_type_u16 then
      extractGo only_type stop_at_zero max_points rest pts
    else if r.f64_be.length < 2 then
      extractGo only_type stop_at_zero max_points rest pts
    else
      let x := r.f64_be.getD 0 0
      let y := r.f64_be.getD 1 0
      let z := if 3 ≤ r.f64_be.length then r.f64_be.getD 2 0 else 0
      if stop_at_zero && (f64_eq_zero x && (f64_eq_zero y && f64_eq_zero z))
      then pts
      else
        let pts2 := pts ++ [(x, y, z)]
        if maxReached max_points pts2.length then pts2
        else extractGo only_type stop_at_zero max_points rest pts2

/-- Embedding of the point extractor of the inspect script. -/
def extract_points_f64_be (recs : List PolylineRecord)
    (only_type : Option Nat) (stop_at_zero : Bool) (max_points : Option Int) :
    List (Nat × Nat × Nat) :=
  extractGo only_type stop_at_zero max_points recs []

/-- Loop of the point extractor in the plotting module: identical to
`extractGo` except its guard `if not f64_be or len(f64_be) < 2`. -/
def extractGoXyz (only_type : Option Nat) (stop_at_zero : Bool)
    (max_points : Option Int) :
    List PolylineRecord → List (Nat × Nat × Nat) → List (Nat × Nat × Nat)
  | [], pts => pts
  | r :: rest, pts =>
    if onlyTypeSkip only_type r.rec_type_u16 then
      extractGoXyz only_type stop_at_zero max_points rest pts
    else if r.f64_be.isEmpty || decide (r.f64_be.length < 2) then
      extractGoXyz only_type stop_at_zero max_points rest pts
    else
      let x := r.f64_be.getD 0 0
      let y := r.f64_be.getD 1 0
      let z := if 3 ≤ r.f64_be.length then r.f64_be.getD 2 0 else 0
      if stop_at_zero && (f64_eq_zero x && (f64_eq_zero y && f64_eq_zero z))
      then pts
      else
        let pts2 := pts ++ [(x, y, z)]
        if maxReached max_points pts2.length then pts2
        else extractGoXyz only_type stop_at_zero max_points rest pts2

/-- Embedding of the point extractor of the plotting module. -/
def extract_points_f64_be_xyz (recs : List PolylineRecord)
    (only_type : Option Nat) (stop_at_zero : Bool) (max_points : Option Int) :
    List (Nat × Nat × Nat) :=
  extractGoXyz only_type stop_at_zero max_points recs []

/-! Section: Slice lemmas -/

lemma pySlice_eq (xs : List α) (i j : Int) (h0 : 0 ≤ i) (h1 : 0 ≤ j) :
    pySlice xs i j = (xs.drop i.toNat).take (j.toNat - i.toNat) := by
  simp only [pySlice]
  rw [if_neg (by omega), if_neg (by omega), List.drop_take]
  rcases le_or_lt (i.toNat) xs.length with hle | hlt
  · rw [min_eq_left hle]
    rcases le_or_lt (j.toNat) xs.length with hjle | hjlt
    · rw [min_eq_left hjle]
    · rw [min_eq_right (le_of_lt hjlt),
        List.take_of_length_le (by simp only [List.length_drop]; omega),
        List.take_of_length_le (by simp only [List.length_drop]; omega)]
  · rw [min_eq_right (le_of_lt hlt)]
    have hd2 : xs.drop i.toNat = [] := by
      apply List.drop_eq_nil_of_le; omega
    rw [List.drop_length, hd2, List.take_nil, List.take_nil]

lemma pySlice_zero (xs : List α) (j : Int) (h1 : 0 ≤ j) :
    pySlice xs 0 j = xs.take j.toNat := by
  rw [pySlice_eq xs 0 j le_rfl h1]; simp

lemma pySlice_length (xs : List α) (i j : Int) (h0 : 0 ≤ i) (h1 : i ≤ j)
    (h2 : j ≤ (xs.length : Int)) :
    (pySlice xs i j).length = (j - i).toNat := by
  rw [pySlice_eq xs i j h0 (by omega)]
  simp only [List.length_take, List.length_drop]
  omega

/-! Section: `parse_polyline` lemmas -/

lemma decodeRecord_ok_of (blob : Bytes) (fmt : PolylineFormat) (i : Nat)
    (h2 : 2 ≤ (pySlice blob (fmt.header_len + (i : Int) * fmt.record_len)
      (fmt.header_len + (i : Int) * fmt.record_len + fmt.record_len)).length) :
    decodeRecord blob fmt i = Except.ok (mkRecord blob fmt i) := by
  unfold decodeRecord mkRecord
  rcases hc : pySlice blob (fmt.header_len + (i : Int) * fmt.record_len)
      (fmt.header_len + (i : Int) * fmt.record_len + fmt.record_len) with
    _ | ⟨a, _ | ⟨b, t⟩⟩
  · rw [hc] at h2; simp at h2
  · rw [hc] at h2; simp at h2
  · simp only [hc]
    rfl

lemma decodeFrom_ok (blob : Bytes) (fmt : PolylineFormat)
    (hh : 0 ≤ fmt.header_len) (hr : 2 ≤ fmt.record_len) :
    ∀ (k i : Nat),
      fmt.header_len + ((i + k : Nat) : Int) * fmt.record_len ≤
        (blob.length : Int) →
      decodeFrom blob fmt i k =
        Except.ok ((List.range k).map fun j => mkRecord blob fmt (i + j)) := by
  intro k
  induction k with
  | zero => intro i _; simp [decodeFrom]
  | succ k ih =>
    intro i hbound
    have hoff : 0 ≤ fmt.header_len + (i : Int) * fmt.record_len := by positivity
    have hend : fmt.header_len + (i : Int) * fmt.record_len + fmt.record_len ≤
        (blob.length : Int) := by
      have hkr : 0 ≤ (k : Int) * fmt.record_len := by positivity
      push_cast at hbound
      nlinarith [hkr, hbound]
    have hclen : (pySlice blob (fmt.header_len + (i : Int) * fmt.record_len)
        (fmt.header_len + (i : Int) * fmt.record_len + fmt.record_len)).length =
        fmt.record_len.toNat := by
      rw [pySlice_length _ _ _ hoff (by omega) hend]
      omega
    have hrec := decodeRecord_ok_of blob fmt i (by omega)
    have hrest : decodeFrom blob fmt (i + 1) k =
        Except.ok ((List.range k).map fun j => mkRecord blob fmt (i + 1 + j)) := by
      apply ih
      have : ((i + 1 + k : Nat) : Int) = ((i + (k + 1) : Nat) : Int) := by
        push_cast; ring
      rw [this]; exact hbound
    show (match decodeRecord blob fmt i with
      | Except.error e => Except.error e
      | Except.ok r =>
        match decodeFrom blob fmt (i + 1) k with
        | Except.error e => Except.error e
        | Except.ok rest => Except.ok (r :: rest)) = _
    rw [hrec, hrest]
    have hlist : (List.range (k + 1)).map (fun j => mkRecord blob fmt (i + j)) =
        mkRecord blob fmt i ::
          (List.range k).map fun j => mkRecord blob fmt (i + 1 + j) := by
      rw [List.range_succ_eq_map, List.map_cons, List.map_map]
      congr 1
      apply List.map_congr_left
      intro a _
      show mkRecord blob fmt (i + (a + 1)) = mkRecord blob fmt (i + 1 + a)
      congr 1
      omega
    rw [hlist]

lemma decodeRecord_error_struct (blob : Bytes) (fmt : PolylineFormat) (i : Nat)
    (e : ParseError) (h : decodeRecord blob fmt i = Except.error e) :
    e = ParseError.structError := by
  simp only [decodeRecord] at h
  rcases hu : u16_le ((pySlice blob (fmt.header_len + (i : Int) * fmt.record_len)
      (fmt.header_len + (i : Int) * fmt.record_len + fmt.record_len)).take 2) with
    _ | t
  · rw [hu] at h
    simp only [Except.error.injEq] at h
    exact h.symm
  · rw [hu] at h
    simp at h

lemma decodeFrom_no_formatError (blob : Bytes) (fmt : PolylineFormat) :
    ∀ (k i : Nat) (msg : String),
      decodeFrom blob fmt i k ≠ Except.error (ParseError.formatError msg) := by
  intro k
  induction k with
  | zero => intro i msg h; simp [decodeFrom] at h
  | succ k ih =>
    intro i msg h
    unfold decodeFrom at h
    rcases hr : decodeRecord blob fmt i with e | r
    · rw [hr] at h
      have := decodeRecord_error_struct blob fmt i e hr
      subst this
      simp at h
    · rw [hr] at h
      rcases hrest : decodeFrom blob fmt (i + 1) k with e2 | rest
      · rw [hrest] at h
        simp only [Except.error.injEq] at h
        subst h
        exact ih (i + 1) msg hrest
      · rw [hrest] at h
        simp at h

lemma decodeFrom_mem (blob : Bytes) (fmt : PolylineFormat) :
    ∀ (k i : Nat) (l : List PolylineRecord),
      decodeFrom blob fmt i k = Except.ok l →
      ∀ rec ∈ l, ∃ j, j < k ∧ decodeRecord blob fmt (i + j) = Except.ok rec := by
  intro k
  induction k with
  | zero =>
    intro i l h rec hm
    simp [decodeFrom] at h
    subst h
    simp at hm
  | succ k ih =>
    intro i l h rec hm
    unfold decodeFrom at h
    rcases hr : decodeRecord blob fmt i with e | r
    · rw [hr] at h; simp at h
    · rw [hr] at h
      rcases hrest : decodeFrom blob fmt (i + 1) k with e2 | rest
      · rw [hrest] at h; simp at h
      · rw [hrest] at h
        simp only [Except.ok.injEq] at h
        subst h
        rcases List.mem_cons.mp hm with hm2 | hm2
        · subst hm2
          exact ⟨0, by omega, by simpa using hr⟩
        · obtain ⟨j, hj, hok⟩ := ih (i + 1) rest hrest rec hm2
          exact ⟨j + 1, by omega,
            by rw [show i + (j + 1) = i + 1 + j by omega]; exact hok⟩

lemma body_eq_drop (blob : Bytes) (h : Int) (h0 : 0 ≤ h) :
    pySlice blob h (blob.length : Int) = blob.drop h.toNat := by
  rw [pySlice_eq _ _ _ h0 (by positivity)]
  apply List.take_of_length_le
  simp only [List.length_drop, Int.toNat_natCast]
  omega

/-- Claim C1: For `0 ≤ header_len ≤ len(blob)`, `record_len > 2` and body
length divisible by `record_len`, `parse_polyline` succeeds, returns
`header_bytes = blob[0:header_len]` and exactly
`(len(blob) - header_len) / record_len` records, record `i` having
`index = i` and `offset = header_len + i * record_len`, so indices and
offsets are strictly increasing. -/
theorem parse_polyline_ok_spec (blob : Bytes) (fmt : PolylineFormat)
    (h0 : 0 ≤ fmt.header_len) (h1 : fmt.header_len ≤ (blob.length : Int))
    (h2 : 2 < fmt.record_len)
    (h3 : fmt.record_len ∣ ((blob.length : Int) - fmt.header_len)) :
    ∃ recs : List PolylineRecord,
      parse_polyline blob fmt =
        Except.ok (blob.take fmt.header_len.toNat, recs) ∧
      (recs.length : Int) * fmt.record_len =
        (blob.length : Int) - fmt.header_len ∧
      (recs.length : Int) =
        ((blob.length : Int) - fmt.header_len) / fmt.record_len ∧
      (∀ i (hi : i < recs.length),
        (recs.get ⟨i, hi⟩).index = i ∧
        (recs.get ⟨i, hi⟩).offset =
          fmt.header_len + (i : Int) * fmt.record_len) ∧
      (∀ i j (hi : i < recs.length) (hj : j < recs.length), i < j →
        (recs.get ⟨i, hi⟩).index < (recs.get ⟨j, hj⟩).index ∧
        (recs.get ⟨i, hi⟩).offset < (recs.get ⟨j, hj⟩).offset) := by
  have hbody := body_eq_drop blob fmt.header_len h0
  have hblen : (blob.drop fmt.header_len.toNat).length =
      blob.length - fmt.header_len.toNat := by simp
  have hdvd : fmt.record_len.toNat ∣ (blob.length - fmt.header_len.toNat) := by
    obtain ⟨q, hq⟩ := h3
    have hq0 : 0 ≤ q := by nlinarith
    refine ⟨q.toNat, ?_⟩
    have hcast2 : ((fmt.record_len.toNat * q.toNat : Nat) : Int) =
        (blob.length : Int) - fmt.header_len := by
      push_cast
      rw [Int.toNat_of_nonneg (by omega : (0 : Int) ≤ fmt.record_len),
        Int.toNat_of_nonneg hq0]
      exact hq.symm
    omega
  set nrec := (blob.length - fmt.header_len.toNat) / fmt.record_len.toNat with hnrec
  have hnat : nrec * fmt.record_len.toNat = blob.length - fmt.header_len.toNat :=
    Nat.div_mul_cancel hdvd
  have hcast : (nrec : Int) * fmt.record_len =
      (blob.length : Int) - fmt.header_len := by
    have hc := congrArg (fun n : Nat => (n : Int)) hnat
    push_cast at hc
    rw [Int.toNat_of_nonneg (by omega : (0 : Int) ≤ fmt.record_len)] at hc
    have h6 : ((blob.length - fmt.header_len.toNat : Nat) : Int) =
        (blob.length : Int) - fmt.header_len := by omega
    rw [h6] at hc
    exact hc
  have hmod : ((blob.drop fmt.header_len.toNat).length : Int) %
      fmt.record_len = 0 := by
    rw [hblen]
    have : ((blob.length - fmt.header_len.toNat : Nat) : Int) =
        (nrec : Int) * fmt.record_len := by omega
    rw [this, Int.mul_emod_left]
  have hdf := decodeFrom_ok blob fmt h0 (by omega) nrec 0
    (by simp only [Nat.zero_add]; linarith [hcast])
  refine ⟨(List.range nrec).map fun j => mkRecord blob fmt j, ?_, ?_, ?_, ?_, ?_⟩
  · simp only [parse_polyline]
    rw [if_neg (by omega), if_neg (by omega), hbody,
      if_neg (by simpa using hmod)]
    rw [hblen, ← hnrec, hdf]
    rw [pySlice_zero _ _ h0]
    simp only [Nat.zero_add]
  · simpa using hcast
  · simp only [List.length_map, List.length_range]
    rw [← hcast, Int.mul_ediv_cancel _ (by omega)]
  · intro i hi
    have : ((List.range nrec).map fun j => mkRecord blob fmt j).get ⟨i, hi⟩ =
        mkRecord blob fmt i := by
      simp [List.get_eq_getElem]
    rw [this]
    exact ⟨rfl, rfl⟩
  · intro i j hi hj hij
    have hgi : ((List.range nrec).map fun j => mkRecord blob fmt j).get ⟨i, hi⟩ =
        mkRecord blob fmt i := by simp [List.get_eq_getElem]
    have hgj : ((List.range nrec).map fun j => mkRecord blob fmt j).get ⟨j, hj⟩ =
        mkRecord blob fmt j := by simp [List.get_eq_getElem]
    rw [hgi, hgj]
    refine ⟨hij, ?_⟩
    show fmt.header_len + (i : Int) * fmt.record_len <
      fmt.header_len + (j : Int) * fmt.record_len
    have : (i : Int) * fmt.record_len < (j : Int) * fmt.record_len := by
      apply mul_lt_mul_of_pos_right _ (by omega)
      exact_mod_cast hij
    omega

/-- Witness for C1 at `blob = [1,2,3,4]`, `fmt = (0, 4)`. -/
theorem parse_polyline_ok_spec_witness :
    ∃ recs : List PolylineRecord,
      parse_polyline [1, 2, 3, 4] ⟨0, 4⟩ =
        Except.ok (([1, 2, 3, 4] : Bytes).take 0, recs) ∧
      (recs.length : Int) * 4 = 4 - 0 ∧
      (recs.length : Int) = (4 - 0) / 4 ∧
      (∀ i (hi : i < recs.length),
        (recs.get ⟨i, hi⟩).index = i ∧
        (recs.get ⟨i, hi⟩).offset = 0 + (i : Int) * 4) ∧
      (∀ i j (hi : i < recs.length) (hj : j < recs.length), i < j →
        (recs.get ⟨i, hi⟩).index < (recs.get ⟨j, hj⟩).index ∧
        (recs.get ⟨i, hi⟩).offset < (recs.get ⟨j, hj⟩).offset) :=
  parse_polyline_ok_spec [1, 2, 3, 4] ⟨0, 4⟩ (by norm_num) (by norm_num)
    (by norm_num) (by norm_num)

/-- Claim C2 amended: `parse_polyline` raises `FormatError` (Python
`ValueError`) exactly when `header_len < 0`, `record_len ≤ 0`,
`header_len > len(blob)`, or the body length is not divisible by
`record_len`; the source only guards `record_len <= 0`, not `<= 2` as the
claim states. -/
theorem parse_polyline_formatError_iff (blob : Bytes) (fmt : PolylineFormat) :
    (∃ msg, parse_polyline blob fmt = Except.error (ParseError.formatError msg))
      ↔ (fmt.header_len < 0 ∨ fmt.record_len ≤ 0 ∨
        (blob.length : Int) < fmt.header_len ∨
        ¬ fmt.record_len ∣ ((blob.length : Int) - fmt.header_len)) := by
  constructor
  · rintro ⟨msg, hmsg⟩
    by_contra hcon
    push_neg at hcon
    obtain ⟨hc1, hc2, hc3, hc4⟩ := hcon
    have hbody := body_eq_drop blob fmt.header_len (by omega)
    have hmod : ((blob.drop fmt.header_len.toNat).length : Int) %
        fmt.record_len = 0 := by
      obtain ⟨q, hq⟩ := hc4
      have hlen2 : ((blob.drop fmt.header_len.toNat).length : Int) =
          (blob.length : Int) - fmt.header_len := by
        simp only [List.length_drop]; omega
      rw [hlen2, hq, Int.mul_emod_right]
    simp only [parse_polyline] at hmsg
    rw [if_neg (by omega), if_neg (by omega), hbody,
      if_neg (by simpa using hmod)] at hmsg
    rcases hdf : decodeFrom blob fmt 0
        ((blob.drop fmt.header_len.toNat).length / fmt.record_len.toNat) with
      e | l
    · rw [hdf] at hmsg
      simp only [Except.error.injEq] at hmsg
      rw [hmsg] at hdf
      exact decodeFrom_no_formatError blob fmt _ 0 msg hdf
    · rw [hdf] at hmsg
      simp at hmsg
  · intro hcon
    by_cases hA : fmt.header_len < 0 ∨ fmt.record_len ≤ 0
    · exact ⟨"invalid format", by simp only [parse_polyline]; rw [if_pos hA]⟩
    · by_cases hB : (blob.length : Int) < fmt.header_len
      · exact ⟨"blob shorter than header",
          by simp only [parse_polyline]; rw [if_neg hA, if_pos hB]⟩
      · have hnd : ¬ fmt.record_len ∣ ((blob.length : Int) - fmt.header_len) := by
          tauto
        have hbody := body_eq_drop blob fmt.header_len (by omega)
        have hmod : ((blob.drop fmt.header_len.toNat).length : Int) %
            fmt.record_len ≠ 0 := by
          intro hz
          apply hnd
          rw [Int.dvd_iff_emod_eq_zero]
          have : ((blob.drop fmt.header_len.toNat).length : Int) =
              (blob.length : Int) - fmt.header_len := by
            simp only [List.length_drop]; omega
          rwa [this] at hz
        refine ⟨"body not divisible by record_len", ?_⟩
        simp only [parse_polyline]
        rw [if_neg hA, if_neg hB, hbody, if_pos hmod]

/-- Counterexample to C2 as stated: `record_len = 2` is claimed to raise
a format error, but parsing a two-byte blob with record length 2
succeeds. -/
theorem parse_polyline_formatError_cex :
    ¬ ∃ msg, parse_polyline [0, 0] ⟨0, 2⟩ =
      Except.error (ParseError.formatError msg) := by
  rintro ⟨msg, hmsg⟩
  have hok : parse_polyline [0, 0] ⟨0, 2⟩ =
      Except.ok (([] : Bytes),
        ([{ index := 0, offset := 0, rec_type_u16 := 0,
            payload := [], f64_le := [], f64_be := [], f32_le := [],
            i32_le := [] }] : List PolylineRecord)) := by decide
  rw [hok] at hmsg
  exact Except.noConfusion hmsg

lemma decodeRecord_ok_inv (blob : Bytes) (fmt : PolylineFormat) (i : Nat)
    (rec : PolylineRecord) (h : decodeRecord blob fmt i = Except.ok rec) :
    ∃ a b t,
      pySlice blob (fmt.header_len + (i : Int) * fmt.record_len)
        (fmt.header_len + (i : Int) * fmt.record_len + fmt.record_len) =
        a :: b :: t ∧
      rec.offset = fmt.header_len + (i : Int) * fmt.record_len ∧
      rec.rec_type_u16 = a + 256 * b ∧
      rec.payload = t := by
  simp only [decodeRecord] at h
  rcases hc : pySlice blob (fmt.header_len + (i : Int) * fmt.record_len)
      (fmt.header_len + (i : Int) * fmt.record_len + fmt.record_len) with
    _ | ⟨a, _ | ⟨b, t⟩⟩ <;> rw [hc] at h
  · simp [u16_le] at h
  · simp [u16_le] at h
  · refine ⟨a, b, t, rfl, ?_⟩
    simp only [List.take_succ_cons, List.take_zero, u16_le,
      List.drop_succ_cons, List.drop_zero, Except.ok.injEq] at h
    rw [← h]
    exact ⟨rfl, rfl, rfl⟩

/-- Claim C6: For every successful decode, each record's `type_tag` is the
little-endian u16 of `blob[offset : offset+2]` and its `payload` is
`blob[offset+2 : offset+record_len]`: re-slicing the blob reproduces the
bytes the record was derived from. -/
theorem parse_polyline_roundtrip (blob : Bytes) (fmt : PolylineFormat)
    (hdr : Bytes) (recs : List PolylineRecord)
    (h : parse_polyline blob fmt = Except.ok (hdr, recs)) :
    ∀ rec ∈ recs,
      u16_le (pySlice blob rec.offset (rec.offset + 2)) =
        some rec.rec_type_u16 ∧
      rec.payload =
        pySlice blob (rec.offset + 2) (rec.offset + fmt.record_len) := by
  intro rec hmem
  simp only [parse_polyline] at h
  by_cases hA : fmt.header_len < 0 ∨ fmt.record_len ≤ 0
  · rw [if_pos hA] at h; exact Except.noConfusion h
  rw [if_neg hA] at h
  by_cases hB : (blob.length : Int) < fmt.header_len
  · rw [if_pos hB] at h; exact Except.noConfusion h
  rw [if_neg hB] at h
  by_cases hC : ((pySlice blob fmt.header_len (blob.length : Int)).length : Int)
      % fmt.record_len ≠ 0
  · rw [if_pos hC] at h; exact Except.noConfusion h
  rw [if_neg hC] at h
  rcases hdf : decodeFrom blob fmt 0
      ((pySlice blob fmt.header_len (blob.length : Int)).length /
        fmt.record_len.toNat) with e | l
  · rw [hdf] at h; exact Except.noConfusion h
  · rw [hdf] at h
    simp only [Except.ok.injEq, Prod.mk.injEq] at h
    obtain ⟨-, hrecs⟩ := h
    subst hrecs
    obtain ⟨j, hj, hok⟩ := decodeFrom_mem blob fmt _ 0 l hdf rec hmem
    simp only [Nat.zero_add] at hok
    obtain ⟨a, b, t, hchunk, hoff, htag, hpay⟩ :=
      decodeRecord_ok_inv blob fmt j rec hok
    have hh0 : 0 ≤ fmt.header_len := by omega
    have hr1 : 1 ≤ fmt.record_len := by omega
    have hoff0 : 0 ≤ fmt.header_len + (j : Int) * fmt.record_len := by positivity
    set off : Int := fmt.header_len + (j : Int) * fmt.record_len with hoffdef
    set off' : Nat := off.toNat with hoff'
    set r' : Nat := fmt.record_len.toNat with hr'
    have hchunk2 : (blob.drop off').take r' = a :: b :: t := by
      rw [pySlice_eq _ _ _ hoff0 (by omega)] at hchunk
      have : (off + fmt.record_len).toNat - off.toNat = r' := by omega
      rwa [this] at hchunk
    have h2r : 2 ≤ r' := by
      have := congrArg List.length hchunk2
      simp only [List.length_take, List.length_cons] at this
      omega
    constructor
    · rw [hoff, pySlice_eq _ _ _ hoff0 (by omega)]
      have hn2 : (off + 2).toNat - off.toNat = 2 := by omega
      rw [hn2]
      have htake2 : (blob.drop off').take 2 = [a, b] := by
        have := congrArg (List.take 2) hchunk2
        rw [List.take_take, min_eq_left h2r] at this
        simpa using this
      rw [htake2, htag]
      rfl
    · rw [hoff, hpay, pySlice_eq _ _ _ (by omega) (by omega)]
      have hn3 : (off + fmt.record_len).toNat - (off + 2).toNat = r' - 2 := by
        omega
      rw [hn3]
      have hdrop := congrArg (List.drop 2) hchunk2
      rw [List.drop_take, List.drop_drop] at hdrop
      simp only [List.drop_succ_cons, List.drop_zero] at hdrop
      have ho2 : (off + 2).toNat = off' + 2 := by omega
      rw [ho2, ← hdrop]

/-- Witness for C6: the single record of
`parse_polyline([7,0,1,2], (0,4))`. -/
theorem parse_polyline_roundtrip_witness :
    u16_le (pySlice [7, 0, 1, 2] (0 : Int) ((0 : Int) + 2)) = some 7 ∧
    ([1, 2] : Bytes) = pySlice [7, 0, 1, 2] ((0 : Int) + 2) ((0 : Int) + 4) :=
  parse_polyline_roundtrip [7, 0, 1, 2] ⟨0, 4⟩ []
    [{ index := 0, offset := 0, rec_type_u16 := 7, payload := [1, 2],
       f64_le := [], f64_be := [], f32_le := [], i32_le := [] }] rfl
    { index := 0, offset := 0, rec_type_u16 := 7, payload := [1, 2],
      f64_le := [], f64_be := [], f32_le := [], i32_le := [] }
    (List.mem_singleton.mpr rfl)

/-! Section: Numeric views (C3) -/

lemma try_unpack_f64_eq (payload : Bytes) (big : Bool) :
    try_unpack_f64 payload big =
      (List.range (payload.length / 8)).map
        fun k => (if big then word_be else word_le)
          ((payload.drop (8 * k)).take 8) := by
  simp only [try_unpack_f64]
  by_cases hn : (payload.length / 8) * 8 ≤ 0
  · rw [if_pos hn]
    have h8 : payload.length / 8 = 0 := by omega
    rw [h8, List.range_zero, List.map_nil]
  · rw [if_neg hn, Nat.mul_div_cancel _ (by norm_num : 0 < 8)]

lemma try_unpack_f32_le_eq (payload : Bytes) :
    try_unpack_f32_le payload =
      (List.range (payload.length / 4)).map
        fun k => word_le ((payload.drop (4 * k)).take 4) := by
  simp only [try_unpack_f32_le]
  by_cases hn : (payload.length / 4) * 4 ≤ 0
  · rw [if_pos hn]
    have h4 : payload.length / 4 = 0 := by omega
    rw [h4, List.range_zero, List.map_nil]
  · rw [if_neg hn, Nat.mul_div_cancel _ (by norm_num : 0 < 4)]

lemma try_unpack_i32_le_eq (payload : Bytes) :
    try_unpack_i32_le payload =
      (List.range (payload.length / 4)).map
        fun k => toSigned32 (word_le ((payload.drop (4 * k)).take 4)) := by
  simp only [try_unpack_i32_le]
  by_cases hn : (payload.length / 4) * 4 ≤ 0
  · rw [if_pos hn]
    have h4 : payload.length / 4 = 0 := by omega
    rw [h4, List.range_zero, List.map_nil]
  · rw [if_neg hn, Nat.mul_div_cancel _ (by norm_num : 0 < 4)]

lemma windows_join_full (w : Nat) (hw : 0 < w) :
    ∀ (n : Nat) (b : Bytes), b.length ≤ n →
      ((List.range (b.length / w)).map fun k => (b.drop (w * k)).take w).flatten =
        b.take (w * (b.length / w)) := by
  intro n
  induction n with
  | zero =>
    intro b hb
    have : b = [] := List.eq_nil_of_length_eq_zero (by omega)
    subst this
    simp
  | succ n ih =>
    intro b hb
    by_cases hlt : b.length < w
    · have h0 : b.length / w = 0 := Nat.div_eq_of_lt hlt
      rw [h0]
      simp
    · push_neg at hlt
      have hdiv : b.length / w = (b.length - w) / w + 1 :=
        Nat.div_eq_sub_div hw hlt
      have hblen : (b.drop w).length = b.length - w := by simp
      rw [hdiv, List.range_succ_eq_map, List.map_cons, List.map_map,
        List.flatten_cons]
      have htail :
          (List.map ((fun k => (b.drop (w * k)).take w) ∘ Nat.succ)
            (List.range ((b.length - w) / w))).flatten =
          (b.drop w).take (w * ((b.drop w).length / w)) := by
        have hrw : List.map ((fun k => (b.drop (w * k)).take w) ∘ Nat.succ)
            (List.range ((b.length - w) / w)) =
            List.map (fun k => ((b.drop w).drop (w * k)).take w)
              (List.range ((b.drop w).length / w)) := by
          rw [hblen]
          apply List.map_congr_left
          intro a _
          show (b.drop (w * (a + 1))).take w = _
          rw [List.drop_drop]
          congr 2
          ring
        rw [hrw]
        exact ih (b.drop w) (by simp; omega)
      rw [htail, hblen]
      have hfirst : (b.drop (w * 0)).take w = b.take w := by simp
      rw [hfirst]
      rw [show w * ((b.length - w) / w + 1) =
        w + w * ((b.length - w) / w) by ring]
      rw [List.take_add]

/-- Claim C3: Each numeric view decodes exactly the maximum whole-element
prefix of the payload: `len/8` float64 elements (either endianness) and
`len/4` float32/int32 elements, element `k` coming from the `k`-th
consecutive window, the windows jointly covering exactly the prefix
`payload[0 : width*(len/width)]`; a payload too short for one element
yields the empty view. -/
theorem numeric_views_spec (payload : Bytes) :
    (try_unpack_f64 payload true).length = payload.length / 8 ∧
    (try_unpack_f64 payload false).length = payload.length / 8 ∧
    (try_unpack_f32_le payload).length = payload.length / 4 ∧
    (try_unpack_i32_le payload).length = payload.length / 4 ∧
    try_unpack_f64 payload true =
      (List.range (payload.length / 8)).map
        (fun k => word_be ((payload.drop (8 * k)).take 8)) ∧
    try_unpack_f64 payload false =
      (List.range (payload.length / 8)).map
        (fun k => word_le ((payload.drop (8 * k)).take 8)) ∧
    try_unpack_f32_le payload =
      (List.range (payload.length / 4)).map
        (fun k => word_le ((payload.drop (4 * k)).take 4)) ∧
    try_unpack_i32_le payload =
      (List.range (payload.length / 4)).map
        (fun k => toSigned32 (word_le ((payload.drop (4 * k)).take 4))) ∧
    ((List.range (payload.length / 8)).map
        (fun k => (payload.drop (8 * k)).take 8)).flatten =
      payload.take (8 * (payload.length / 8)) ∧
    ((List.range (payload.length / 4)).map
        (fun k => (payload.drop (4 * k)).take 4)).flatten =
      payload.take (4 * (payload.length / 4)) := by
  refine ⟨?_, ?_, ?_, ?_, ?_, ?_, ?_, ?_, ?_, ?_⟩
  · rw [try_unpack_f64_eq]; simp
  · rw [try_unpack_f64_eq]; simp
  · rw [try_unpack_f32_le_eq]; simp
  · rw [try_unpack_i32_le_eq]; simp
  · rw [try_unpack_f64_eq]; rfl
  · rw [try_unpack_f64_eq]; rfl
  · exact try_unpack_f32_le_eq payload
  · exact try_unpack_i32_le_eq payload
  · exact windows_join_full 8 (by norm_num) payload.length payload le_rfl
  · exact windows_join_full 4 (by norm_num) payload.length payload le_rfl

/-! Section: Point extraction (C5, C10) -/

lemma extractGo_eq_xyz (ot : Option Nat) (saz : Bool) (mp : Option Int) :
    ∀ (recs : List PolylineRecord) (pts : List (Nat × Nat × Nat)),
      extractGo ot saz mp recs pts = extractGoXyz ot saz mp recs pts := by
  intro recs
  induction recs with
  | nil => intro pts; rfl
  | cons r rest ih =>
    intro pts
    by_cases h1 : onlyTypeSkip ot r.rec_type_u16
    · simp only [extractGo, extractGoXyz, if_pos h1]
      exact ih pts
    · by_cases h2 : r.f64_be.length < 2
      · have h2x : (r.f64_be.isEmpty || decide (r.f64_be.length < 2)) = true := by
          simp [h2]
        simp only [extractGo, extractGoXyz, if_neg h1, if_pos h2, h2x,
          if_true]
        exact ih pts
      · have h2x : (r.f64_be.isEmpty || decide (r.f64_be.length < 2)) = false := by
          have : ¬ r.f64_be.isEmpty = true := by
            intro hab
            rw [List.isEmpty_iff] at hab
            rw [hab] at h2
            simp at h2
          simp [h2, this]
        simp only [extractGo, extractGoXyz, if_neg h1, if_neg h2, h2x,
          Bool.false_eq_true, if_false]
        by_cases h3 : (saz && (f64_eq_zero (r.f64_be.getD 0 0) &&
            (f64_eq_zero (r.f64_be.getD 1 0) &&
              f64_eq_zero (if 3 ≤ r.f64_be.length then r.f64_be.getD 2 0
                else 0)))) = true
        · rw [if_pos h3, if_pos h3]
        · rw [if_neg h3, if_neg h3]
          by_cases h4 : maxReached mp (pts ++ [(r.f64_be.getD 0 0,
              r.f64_be.getD 1 0,
              if 3 ≤ r.f64_be.length then r.f64_be.getD 2 0 else 0)]).length
          · rw [if_pos h4, if_pos h4]
          · rw [if_neg h4, if_neg h4]
            exact ih _

/-- Claim C10: The two point-extraction implementations
(`_extract_points_f64_be` in `inspect_polyline.py` and
`_extract_points_f64_be_xyz` in `nctool_plot.py`) agree on every record
list and every argument combination. -/
theorem extract_points_equiv (recs : List PolylineRecord)
    (ot : Option Nat) (saz : Bool) (mp : Option Int) :
    extract_points_f64_be recs ot saz mp =
      extract_points_f64_be_xyz recs ot saz mp :=
  extractGo_eq_xyz ot saz mp recs []

lemma extractGo_no_sentinel (ot : Option Nat) (mp : Option Int) :
    ∀ (recs : List PolylineRecord) (pts : List (Nat × Nat × Nat)),
      (∀ p ∈ pts, ¬(f64_eq_zero p.1 = true ∧ f64_eq_zero p.2.1 = true ∧
        f64_eq_zero p.2.2 = true)) →
      ∀ p ∈ extractGo ot true mp recs pts,
        ¬(f64_eq_zero p.1 = true ∧ f64_eq_zero p.2.1 = true ∧
          f64_eq_zero p.2.2 = true) := by
  intro recs
  induction recs with
  | nil => intro pts hinv p hp; exact hinv p hp
  | cons r rest ih =>
    intro pts hinv p hp
    simp only [extractGo] at hp
    by_cases h1 : onlyTypeSkip ot r.rec_type_u16
    · rw [if_pos h1] at hp; exact ih pts hinv p hp
    rw [if_neg h1] at hp
    by_cases h2 : r.f64_be.length < 2
    · rw [if_pos h2] at hp; exact ih pts hinv p hp
    rw [if_neg h2] at hp
    by_cases h3 : (true && (f64_eq_zero (r.f64_be.getD 0 0) &&
        (f64_eq_zero (r.f64_be.getD 1 0) &&
          f64_eq_zero (if 3 ≤ r.f64_be.length then r.f64_be.getD 2 0
            else 0)))) = true
    · rw [if_pos h3] at hp; exact hinv p hp
    · rw [if_neg h3] at hp
      have hinv2 : ∀ q ∈ pts ++ [(r.f64_be.getD 0 0, r.f64_be.getD 1 0,
          if 3 ≤ r.f64_be.length then r.f64_be.getD 2 0 else 0)],
          ¬(f64_eq_zero q.1 = true ∧ f64_eq_zero q.2.1 = true ∧
            f64_eq_zero q.2.2 = true) := by
        intro q hq
        rcases List.mem_append.mp hq with hq | hq
        · exact hinv q hq
        · rcases List.mem_singleton.mp hq with rfl
          simp only [Bool.true_and, Bool.and_eq_true] at h3
          intro ⟨ha, hb, hc⟩
          exact h3 ⟨ha, hb, hc⟩
      by_cases h4 : maxReached mp (pts ++ [(r.f64_be.getD 0 0,
          r.f64_be.getD 1 0,
          if 3 ≤ r.f64_be.length then r.f64_be.getD 2 0 else 0)]).length
      · rw [if_pos h4] at hp
        exact hinv2 p hp
      · rw [if_neg h4] at hp
        exact ih _ hinv2 p hp

lemma extractGo_length_le (ot : Option Nat) (saz : Bool) (m : Int) :
    ∀ (recs : List PolylineRecord) (pts : List (Nat × Nat × Nat)),
      (pts.length : Int) < m →
      ((extractGo ot saz (some m) recs pts).length : Int) ≤ m := by
  intro recs
  induction recs with
  | nil => intro pts hlt; simp only [extractGo]; omega
  | cons r rest ih =>
    intro pts hlt
    simp only [extractGo]
    by_cases h1 : onlyTypeSkip ot r.rec_type_u16
    · rw [if_pos h1]; exact ih pts hlt
    rw [if_neg h1]
    by_cases h2 : r.f64_be.length < 2
    · rw [if_pos h2]; exact ih pts hlt
    rw [if_neg h2]
    by_cases h3 : (saz && (f64_eq_zero (r.f64_be.getD 0 0) &&
        (f64_eq_zero (r.f64_be.getD 1 0) &&
          f64_eq_zero (if 3 ≤ r.f64_be.length then r.f64_be.getD 2 0
            else 0)))) = true
    · rw [if_pos h3]; omega
    · rw [if_neg h3]
      by_cases h4 : maxReached (some m) (pts ++ [(r.f64_be.getD 0 0,
          r.f64_be.getD 1 0,
          if 3 ≤ r.f64_be.length then r.f64_be.getD 2 0 else 0)]).length
      · rw [if_pos h4]
        simp only [List.length_append, List.length_singleton]
        omega
      · rw [if_neg h4]
        apply ih
        simp only [maxReached, decide_eq_true_eq] at h4
        push_neg at h4
        simpa using h4

/-- Claim C5 amended: With `stop_at_sentinel = true`, `extract_points`
never emits a point equal to `(0.0, 0.0, 0.0)`, and when `max_points`
is set to a value `≥ 1` the output length never exceeds it.  (The claim
as stated fails for `max_points = 0`: the length check runs only after
a point is appended, so one point can be emitted.) -/
theorem extract_points_sentinel_max (recs : List PolylineRecord)
    (ot : Option Nat) (mp : Option Int) :
    (∀ p ∈ extract_points_f64_be recs ot true mp,
      ¬(f64_eq_zero p.1 = true ∧ f64_eq_zero p.2.1 = true ∧
        f64_eq_zero p.2.2 = true)) ∧
    (∀ m : Int, mp = some m → 1 ≤ m →
      ((extract_points_f64_be recs ot true mp).length : Int) ≤ m) := by
  constructor
  · exact extractGo_no_sentinel ot mp recs [] (by simp)
  · intro m hm hm1
    subst hm
    exact extractGo_length_le ot true m recs [] (by simp; omega)

/-- Counterexample to C5 as stated: with `max_points = 0` the output
still holds one point, exceeding `max_points`. -/
theorem extract_points_max_cex :
    ¬(((extract_points_f64_be
        [{ index := 0, offset := 0, rec_type_u16 := 5, payload := [],
           f64_le := [], f64_be := [1, 2], f32_le := [], i32_le := [] }]
        none true (some 0)).length : Int) ≤ 0) := by decide

/-- Witness for C5 (amended) at a concrete record list and
`max_points = 2`. -/
theorem extract_points_sentinel_max_witness :
    ((extract_points_f64_be
        [{ index := 0, offset := 0, rec_type_u16 := 5, payload := [],
           f64_le := [], f64_be := [1, 2], f32_le := [], i32_le := [] }]
        none true (some 2)).length : Int) ≤ 2 :=
  (extract_points_sentinel_max
      [{ index := 0, offset := 0, rec_type_u16 := 5, payload := [],
         f64_le := [], f64_be := [1, 2], f32_le := [], i32_le := [] }]
      none (some 2)).2 2 rfl (by norm_num)

/-! Section: Record-type summary (C7) -/

lemma bumpCount_keys (c : List (Nat × Nat)) (t : Nat) :
    (bumpCount c t).map Prod.fst =
      if t ∈ c.map Prod.fst then c.map Prod.fst
      else c.map Prod.fst ++ [t] := by
  induction c with
  | nil => simp [bumpCount]
  | cons kv rest ih =>
    obtain ⟨k, v⟩ := kv
    by_cases hk : k = t
    · subst hk
      simp [bumpCount]
    · simp only [bumpCount, if_neg hk, List.map_cons, ih]
      by_cases hmem : t ∈ rest.map Prod.fst
      · rw [if_pos hmem, if_pos (by simp [hmem])]
      · rw [if_neg hmem,
          if_neg (by simp [hmem]; exact fun hh => hk hh.symm)]
        simp

lemma bumpCount_nodup (c : List (Nat × Nat)) (t : Nat)
    (h : (c.map Prod.fst).Nodup) : ((bumpCount c t).map Prod.fst).Nodup := by
  rw [bumpCount_keys]
  by_cases hmem : t ∈ c.map Prod.fst
  · rwa [if_pos hmem]
  · rw [if_neg hmem]
    rw [List.nodup_append]
    exact ⟨h, List.nodup_singleton t,
      fun a ha hb => hmem (by rwa [List.mem_singleton.mp hb] at ha)⟩

lemma bumpCount_sum (c : List (Nat × Nat)) (t : Nat) :
    ((bumpCount c t).map Prod.snd).sum = (c.map Prod.snd).sum + 1 := by
  induction c with
  | nil => simp [bumpCount]
  | cons kv rest ih =>
    obtain ⟨k, v⟩ := kv
    by_cases hk : k = t
    · subst hk
      rw [show bumpCount ((k, v) :: rest) k = (k, v + 1) :: rest from by
        simp [bumpCount]]
      simp only [List.map_cons, List.sum_cons]
      omega
    · simp only [bumpCount, if_neg hk, List.map_cons, List.sum_cons, ih]
      omega

lemma foldl_bump_nodup (records : List PolylineRecord) :
    ∀ c : List (Nat × Nat), (c.map Prod.fst).Nodup →
      ((records.foldl (fun c r => bumpCount c r.rec_type_u16) c).map
        Prod.fst).Nodup := by
  induction records with
  | nil => intro c h; exact h
  | cons r rest ih =>
    intro c h
    exact ih _ (bumpCount_nodup c _ h)

lemma foldl_bump_sum (records : List PolylineRecord) :
    ∀ c : List (Nat × Nat),
      ((records.foldl (fun c r => bumpCount c r.rec_type_u16) c).map
        Prod.snd).sum = (c.map Prod.snd).sum + records.length := by
  induction records with
  | nil => intro c; simp
  | cons r rest ih =>
    intro c
    rw [List.foldl_cons, ih, bumpCount_sum]
    simp only [List.length_cons]
    omega

/-- Claim C7: `summarize_record_types` orders its entries by strictly
descending count with ties broken by strictly ascending type tag, and the
counts sum to the number of input records; it is a total function. -/
theorem summarize_record_types_spec (records : List PolylineRecord) :
    List.Pairwise (fun a b : Nat × Nat =>
      b.2 < a.2 ∨ (a.2 = b.2 ∧ a.1 < b.1)) (summarize_record_types records) ∧
    ((summarize_record_types records).map Prod.snd).sum = records.length := by
  have hperm : (List.insertionSort summLe
      (records.foldl (fun c r => bumpCount c r.rec_type_u16) [])).Perm
      (records.foldl (fun c r => bumpCount c r.rec_type_u16) []) :=
    List.perm_insertionSort _ _
  constructor
  · have hsorted : List.Sorted summLe (summarize_record_types records) :=
      List.sorted_insertionSort summLe _
    have hnodup : ((summarize_record_types records).map Prod.fst).Nodup := by
      have h1 := foldl_bump_nodup records [] (by simp)
      exact ((hperm.map Prod.fst).nodup_iff).mpr h1
    have hne : List.Pairwise (fun a b : Nat × Nat => a.1 ≠ b.1)
        (summarize_record_types records) := by
      rw [List.Nodup, List.pairwise_map] at hnodup
      exact hnodup
    have hand := List.Pairwise.and hsorted hne
    apply hand.imp
    intro a b hab
    obtain ⟨hle, hne'⟩ := hab
    unfold summLe at hle
    rcases hle with hlt | ⟨heq, hle2⟩
    · exact Or.inl hlt
    · exact Or.inr ⟨heq, by omega⟩
  · have hsum := (hperm.map Prod.snd).sum_eq
    unfold summarize_record_types
    rw [hsum, foldl_bump_sum records []]
    simp

/-! Section: Hexdump (C8) -/

lemma hexChunk_eq (b : Bytes) (w k : Nat) (hw : 0 < w) :
    hexChunk b w k = (b.drop (k * w)).take w := by
  unfold hexChunk
  have harg : ((k * w : Nat) : Int) + ((w : Nat) : Int) =
      ((k * w + w : Nat) : Int) := by push_cast; ring
  rw [harg, pySlice_eq _ _ _ (by positivity) (by positivity),
    Int.toNat_natCast, Int.toNat_natCast]
  congr 1
  omega

lemma windows_join_ceil (w : Nat) (hw : 0 < w) :
    ∀ (n : Nat) (b : Bytes), b.length ≤ n →
      ((List.range (pyRangeLen b.length w)).map fun k =>
        (b.drop (k * w)).take w).flatten = b := by
  intro n
  induction n with
  | zero =>
    intro b hb
    have hnil : b = [] := List.eq_nil_of_length_eq_zero (by omega)
    subst hnil
    have h0 : pyRangeLen 0 w = 0 := by
      unfold pyRangeLen; apply Nat.div_eq_of_lt; omega
    simp [h0]
  | succ n ih =>
    intro b hb
    by_cases hlen : b.length = 0
    · have hnil : b = [] := List.eq_nil_of_length_eq_zero hlen
      subst hnil
      have h0 : pyRangeLen 0 w = 0 := by
        unfold pyRangeLen; apply Nat.div_eq_of_lt; omega
      simp [h0]
    · have h1 : pyRangeLen b.length w = pyRangeLen (b.length - w) w + 1 := by
        unfold pyRangeLen
        rcases le_or_lt b.length w with hle | hlt
        · have hz : b.length - w = 0 := by omega
          rw [hz]
          have hL : (b.length + w - 1) / w = 1 := by
            apply Nat.div_eq_of_lt_le <;> omega
          have hR : (0 + w - 1) / w = 0 := Nat.div_eq_of_lt (by omega)
          omega
        · rw [Nat.div_eq_sub_div hw (by omega : w ≤ b.length + w - 1)]
          have harg : b.length + w - 1 - w = b.length - w + w - 1 := by omega
          rw [harg]
      rw [h1, List.range_succ_eq_map, List.map_cons, List.map_map,
        List.flatten_cons]
      have hhead : (b.drop (0 * w)).take w = b.take w := by simp
      rw [hhead]
      have htail : (List.map ((fun k => (b.drop (k * w)).take w) ∘ Nat.succ)
          (List.range (pyRangeLen (b.length - w) w))).flatten = b.drop w := by
        have hrw : List.map ((fun k => (b.drop (k * w)).take w) ∘ Nat.succ)
            (List.range (pyRangeLen (b.length - w) w)) =
            List.map (fun k => ((b.drop w).drop (k * w)).take w)
              (List.range (pyRangeLen ((b.drop w).length) w)) := by
          rw [List.length_drop]
          apply List.map_congr_left
          intro a _
          show (b.drop ((a + 1) * w)).take w = _
          rw [List.drop_drop]
          congr 2
          ring
        rw [hrw]
        exact ih (b.drop w) (by simp; omega)
      rw [htail]
      exact List.take_append_drop w b

/-- Claim C8 amended: For `width ≥ 1` and `max_bytes ≥ 0`, `hexdump`
never raises: it renders exactly the first `min(len, max_bytes)` bytes as
rows of at most `width` bytes each and appends the truncation note with
the true total length exactly when `len(data) > max_bytes`.  (As stated
the claim fails: `width = 0` makes Python's `range` raise `ValueError`,
and a negative `max_bytes` renders more than `max_bytes` bytes.) -/
theorem hexdump_spec (data : Bytes) (width max_bytes : Int)
    (hw : 1 ≤ width) (hm : 0 ≤ max_bytes) :
    hexdump data width max_bytes = Except.ok (String.intercalate "\n"
      (((List.range (pyRangeLen (data.take max_bytes.toNat).length
          width.toNat)).map fun k => hexLine width.toNat (k * width.toNat)
            (hexChunk (data.take max_bytes.toNat) width.toNat k)) ++
        (if (data.length : Int) > max_bytes then [truncNote data.length]
          else []))) ∧
    ((List.range (pyRangeLen (data.take max_bytes.toNat).length
        width.toNat)).map fun k =>
          hexChunk (data.take max_bytes.toNat) width.toNat k).flatten =
      data.take max_bytes.toNat ∧
    ((data.take max_bytes.toNat).length : Int) ≤ max_bytes ∧
    ∀ k, (hexChunk (data.take max_bytes.toNat) width.toNat k).length ≤
      width.toNat := by
  have hb : pySlice data 0 max_bytes = data.take max_bytes.toNat :=
    pySlice_zero data max_bytes hm
  have hw0 : 0 < width.toNat := by omega
  refine ⟨?_, ?_, ?_, ?_⟩
  · simp only [hexdump]
    rw [if_neg (by omega : ¬ width = 0), hb,
      if_neg (by omega : ¬ width < 0)]
    by_cases hc : (data.length : Int) > max_bytes
    · rw [if_pos hc, if_pos hc]
    · rw [if_neg hc, if_neg hc]
      simp
  · have hck : List.map (fun k => hexChunk (data.take max_bytes.toNat)
        width.toNat k)
        (List.range (pyRangeLen (data.take max_bytes.toNat).length
          width.toNat)) =
        List.map (fun k => ((data.take max_bytes.toNat).drop
          (k * width.toNat)).take width.toNat)
        (List.range (pyRangeLen (data.take max_bytes.toNat).length
          width.toNat)) := by
      apply List.map_congr_left
      intro a _
      exact hexChunk_eq _ _ _ hw0
    rw [hck]
    exact windows_join_ceil width.toNat hw0 _ _ le_rfl
  · simp only [List.length_take]
    omega
  · intro k
    rw [hexChunk_eq _ _ _ hw0]
    simp only [List.length_take]
    exact min_le_left _ _

/-- Counterexample to C8 as stated: `width = 0` raises (Python
`ValueError` from `range(0, len, 0)`) instead of returning text. -/
theorem hexdump_width_zero_cex :
    hexdump [] 0 512 = Except.error "range arg 3 must not be zero" := rfl

/-- Witness for C8 (amended) at `data = [0,1,2]`, `width = 16`,
`max_bytes = 512`. -/
theorem hexdump_spec_witness :
    hexdump [0, 1, 2] 16 512 = Except.ok (String.intercalate "\n"
      ([hexLine 16 0 (hexChunk [0, 1, 2] 16 0)] ++
        (if ((3 : Nat) : Int) > 512 then [truncNote 3] else []))) ∧
    ([hexChunk [0, 1, 2] 16 0]).flatten = [0, 1, 2] ∧
    (((3 : Nat) : Int)) ≤ 512 ∧
    (∀ k, (hexChunk [0, 1, 2] 16 k).length ≤ 16) :=
  hexdump_spec [0, 1, 2] 16 512 (by norm_num) (by norm_num)

/-! Section: Format guessing (C4, C9) -/

/-- Choice between the running best and a new surviving candidate:
the new one wins only on a strictly greater score. -/
def chooseBetter (b c : ℚ × PolylineFormat) : ℚ × PolylineFormat :=
  if c.1 > b.1 then c else b

lemma foldl_updateBest_filterMap (blob : Bytes) (l : List (Int × Int)) :
    ∀ b, l.foldl (fun acc p => updateBest acc (candScore blob p.1 p.2)) b =
      (l.filterMap fun p => candScore blob p.1 p.2).foldl
        (fun acc c => updateBest acc (some c)) b := by
  induction l with
  | nil => intro b; rfl
  | cons p rest ih =>
    intro b
    rw [List.foldl_cons]
    rcases hc : candScore blob p.1 p.2 with _ | c
    · rw [@List.filterMap_cons_none _ _
        (fun q : Int × Int => candScore blob q.1 q.2) p rest hc]
      exact ih b
    · rw [@List.filterMap_cons_some _ _
        (fun q : Int × Int => candScore blob q.1 q.2) p rest c hc,
        List.foldl_cons]
      exact ih _

lemma updateBest_some_some (b c : ℚ × PolylineFormat) :
    updateBest (some b) (some c) = some (chooseBetter b c) := by
  show (if c.1 > b.1 then some c else some b) =
    some (if c.1 > b.1 then c else b)
  by_cases h : c.1 > b.1
  · rw [if_pos h, if_pos h]
  · rw [if_neg h, if_neg h]

lemma foldl_updSome (s : List (ℚ × PolylineFormat)) :
    ∀ b, s.foldl (fun acc c => updateBest acc (some c)) (some b) =
      some (s.foldl chooseBetter b) := by
  induction s with
  | nil => intro b; rfl
  | cons c rest ih =>
    intro b
    rw [List.foldl_cons, List.foldl_cons, updateBest_some_some]
    exact ih _

lemma bestOf_split :
    ∀ (rest : List (ℚ × PolylineFormat)) (c : ℚ × PolylineFormat),
      ∃ pre suf, c :: rest = pre ++ (rest.foldl chooseBetter c) :: suf ∧
        (∀ x ∈ pre, x.1 < (rest.foldl chooseBetter c).1) ∧
        (∀ x ∈ c :: rest, x.1 ≤ (rest.foldl chooseBetter c).1) := by
  intro rest
  induction rest with
  | nil =>
    intro c
    refine ⟨[], [], rfl, by simp, ?_⟩
    intro x hx
    rw [List.mem_singleton.mp hx]
    exact le_refl _
  | cons d rest' ih =>
    intro c
    rw [List.foldl_cons]
    obtain ⟨pre', suf', hsplit, hpre', hall'⟩ := ih (chooseBetter c d)
    by_cases hcd : d.1 > c.1
    · have hcb : chooseBetter c d = d := if_pos hcd
      rw [hcb] at hsplit hpre' hall' ⊢
      refine ⟨c :: pre', suf', ?_, ?_, ?_⟩
      · rw [List.cons_append, ← hsplit]
      · intro x hx
        rcases List.mem_cons.mp hx with rfl | hx
        · exact lt_of_lt_of_le hcd (hall' d (by simp))
        · exact hpre' x hx
      · intro x hx
        rcases List.mem_cons.mp hx with rfl | hx
        · exact le_of_lt (lt_of_lt_of_le hcd (hall' d (by simp)))
        · exact hall' x hx
    · have hcb : chooseBetter c d = c := if_neg hcd
      rw [hcb] at hsplit hpre' hall' ⊢
      push_neg at hcd
      rcases pre' with _ | ⟨p0, pre''⟩
      · simp only [List.nil_append, List.cons.injEq] at hsplit
        obtain ⟨hc_eq, hsuf⟩ := hsplit
        refine ⟨[], d :: rest', ?_, by simp, ?_⟩
        · rw [← hc_eq, List.nil_append]
        · intro x hx
          rcases List.mem_cons.mp hx with rfl | hx
          · exact hall' x (by simp)
          rcases List.mem_cons.mp hx with rfl | hx
          · exact le_trans hcd (hall' c (by simp))
          · exact hall' x (by simp [hx])
      · rw [List.cons_append, List.cons.injEq] at hsplit
        obtain ⟨hc_p0, hrest'⟩ := hsplit
        have hp0lt : c.1 < (List.foldl chooseBetter c rest').1 := by
          have hh := hpre' p0 (by simp)
          rw [← hc_p0] at hh
          exact hh
        refine ⟨c :: d :: pre'', suf', ?_, ?_, ?_⟩
        · rw [List.cons_append, List.cons_append, ← hrest']
        · intro x hx
          rcases List.mem_cons.mp hx with rfl | hx
          · exact hp0lt
          rcases List.mem_cons.mp hx with rfl | hx
          · exact lt_of_le_of_lt hcd hp0lt
          · exact hpre' x (by simp [hx])
        · intro x hx
          rcases List.mem_cons.mp hx with rfl | hx
          · exact hall' x (by simp)
          rcases List.mem_cons.mp hx with rfl | hx
          · exact le_trans hcd (hall' c (by simp))
          · exact hall' x (List.mem_cons_of_mem _ hx)

lemma guess_best (blob : Bytes) (hs rs : List Int) :
    guess_polyline_format blob hs rs =
      (match survivorsOf blob hs rs with
        | [] => none
        | c :: rest => some ((rest.foldl chooseBetter c).2)) := by
  unfold guess_polyline_format survivorsOf
  rw [foldl_updateBest_filterMap]
  rcases hsv : (candPairs hs rs).filterMap (fun p => candScore blob p.1 p.2)
    with _ | ⟨c, rest⟩
  · rw [hsv]
    rfl
  · rw [hsv, List.foldl_cons,
      show updateBest none (some c) = some c from rfl, foldl_updSome]
    rfl

/-- Claim C4: `guess_polyline_format` scans the candidate cross-product in
order (headers outer, record lengths inner: the order of
`survivorsOf`), keeps the strictly best score so that the earliest
candidate wins ties (every earlier survivor scores strictly lower, no
survivor scores higher), and is deterministic. -/
theorem guess_polyline_format_spec (blob : Bytes) (hs rs : List Int) :
    (survivorsOf blob hs rs = [] → guess_polyline_format blob hs rs = none) ∧
    (survivorsOf blob hs rs ≠ [] →
      ∃ s fmt pre suf, guess_polyline_format blob hs rs = some fmt ∧
        survivorsOf blob hs rs = pre ++ (s, fmt) :: suf ∧
        (∀ x ∈ pre, x.1 < s) ∧
        (∀ x ∈ survivorsOf blob hs rs, x.1 ≤ s)) ∧
    guess_polyline_format blob hs rs = guess_polyline_format blob hs rs := by
  refine ⟨?_, ?_, rfl⟩
  · intro h
    rw [guess_best, h]
  · intro hne
    rcases hsv : survivorsOf blob hs rs with _ | ⟨c, rest⟩
    · exact absurd hsv hne
    · obtain ⟨pre, suf, hsplit, hpre, hall⟩ := bestOf_split rest c
      refine ⟨(rest.foldl chooseBetter c).1, (rest.foldl chooseBetter c).2,
        pre, suf, ?_, ?_, hpre, ?_⟩
      · rw [guess_best, hsv]
      · exact hsplit
      · intro x hx
        exact hall x hx

/-- Witness for C4 at `blob = [0,0,0,0]`, headers `[0]`, record lengths
`[4]` (one surviving candidate). -/
theorem guess_polyline_format_spec_witness :
    ∃ s fmt pre suf,
      guess_polyline_format [0, 0, 0, 0] [0] [4] = some fmt ∧
      survivorsOf [0, 0, 0, 0] [0] [4] = pre ++ (s, fmt) :: suf ∧
      (∀ x ∈ pre, x.1 < s) ∧
      (∀ x ∈ survivorsOf [0, 0, 0, 0] [0] [4], x.1 ≤ s) :=
  (guess_polyline_format_spec [0, 0, 0, 0] [0] [4]).2.1 (by decide)

lemma foldl_updateBest_origin (blob : Bytes) (l : List (Int × Int)) :
    ∀ b r, l.foldl (fun acc p => updateBest acc (candScore blob p.1 p.2)) b =
        some r →
      b = some r ∨ ∃ p ∈ l, candScore blob p.1 p.2 = some r := by
  induction l with
  | nil => intro b r h; exact Or.inl h
  | cons p rest ih =>
    intro b r h
    rw [List.foldl_cons] at h
    rcases ih _ r h with hb | ⟨q, hq, hcs⟩
    · rcases hc : candScore blob p.1 p.2 with _ | c
      · rw [hc] at hb
        exact Or.inl hb
      · rw [hc] at hb
        rcases b with _ | b0
        · right
          exact ⟨p, by simp, by rw [hc]; exact hb⟩
        · by_cases hgt : c.1 > b0.1
          · right
            refine ⟨p, by simp, ?_⟩
            rw [hc]
            rwa [updateBest_some_some,
              show chooseBetter b0 c = c from if_pos hgt] at hb
          · left
            rwa [updateBest_some_some,
              show chooseBetter b0 c = b0 from if_neg hgt] at hb
    · exact Or.inr ⟨q, List.mem_cons_of_mem _ hq, hcs⟩

lemma candScore_some_inv (blob : Bytes) (hp rp : Int) (s : ℚ)
    (fmt : PolylineFormat) (h : candScore blob hp rp = some (s, fmt)) :
    fmt = ⟨hp, rp⟩ ∧ 0 ≤ hp ∧ hp < (blob.length : Int) ∧ 2 < rp ∧
      ((blob.length : Int) - hp) % rp = 0 ∧
      ∃ hdr recs, parse_polyline blob ⟨hp, rp⟩ = Except.ok (hdr, recs) ∧
        recs ≠ [] ∧ s = scoreOf recs := by
  unfold candScore at h
  by_cases h1 : hp < 0 ∨ (blob.length : Int) ≤ hp
  · rw [if_pos h1] at h; simp at h
  rw [if_neg h1] at h
  push_neg at h1
  by_cases h2 : rp ≤ 2
  · rw [if_pos h2] at h; simp at h
  rw [if_neg h2] at h
  by_cases h3 : (blob.length : Int) - hp ≤ 0 ∨
      ((blob.length : Int) - hp) % rp ≠ 0
  · rw [if_pos h3] at h; simp at h
  rw [if_neg h3] at h
  push_neg at h3
  rcases hpp : parse_polyline blob ⟨hp, rp⟩ with e | pr
  · rw [hpp] at h; simp at h
  · rw [hpp] at h
    obtain ⟨hdr, recs⟩ := pr
    have h' : (if recs.isEmpty = true then none
        else some (scoreOf recs, (⟨hp, rp⟩ : PolylineFormat))) =
        some (s, fmt) := h
    by_cases h4 : recs.isEmpty
    · rw [if_pos h4] at h'; simp at h'
    · rw [if_neg h4] at h'
      simp only [Option.some.injEq, Prod.mk.injEq] at h'
      obtain ⟨hs, hf⟩ := h'
      refine ⟨hf.symm, by omega, by omega, by omega, h3.2, hdr, recs, rfl,
        ?_, hs.symm⟩
      intro hnil
      exact h4 (by simp [hnil])

/-- Claim C9: Whenever `guess_polyline_format` returns a format `(h, r)`,
that format is decodable: `r > 2`, `0 ≤ h < len(blob)`, the body length
is divisible by `r`, and `parse_polyline` succeeds on it with at least
one record. -/
theorem guess_polyline_format_sound (blob : Bytes) (hs rs : List Int)
    (fmt : PolylineFormat)
    (h : guess_polyline_format blob hs rs = some fmt) :
    2 < fmt.record_len ∧ 0 ≤ fmt.header_len ∧
      fmt.header_len < (blob.length : Int) ∧
      fmt.record_len ∣ ((blob.length : Int) - fmt.header_len) ∧
      ∃ hdr recs, parse_polyline blob fmt = Except.ok (hdr, recs) ∧
        recs ≠ [] := by
  unfold guess_polyline_format at h
  rcases hfold : (candPairs hs rs).foldl
      (fun b p => updateBest b (candScore blob p.1 p.2)) none with _ | pr
  · rw [hfold] at h
    exact Option.noConfusion h
  · rw [hfold] at h
    have h2 : pr.2 = fmt := Option.some.inj h
    rcases foldl_updateBest_origin blob (candPairs hs rs) none pr hfold with
      hno | ⟨p, hp, hcs⟩
    · exact absurd hno (by simp)
    · obtain ⟨hfeq, hh0, hhlt, hr2, hmod, hdr, recs, hpp, hrne, -⟩ :=
        candScore_some_inv blob p.1 p.2 pr.1 pr.2 hcs
      subst h2
      rw [hfeq]
      exact ⟨hr2, hh0, hhlt, by rw [Int.dvd_iff_emod_eq_zero]; exact hmod,
        hdr, recs, hpp, hrne⟩

/-- Witness for C9 at `blob = [0,0,0,0]`, candidates `[0]` and `[4]`. -/
theorem guess_polyline_format_sound_witness :
    2 < (4 : Int) ∧ (0 : Int) ≤ 0 ∧ (0 : Int) < 4 ∧
      (4 : Int) ∣ (4 - 0 : Int) ∧
      ∃ hdr recs,
        parse_polyline [0, 0, 0, 0] ⟨0, 4⟩ = Except.ok (hdr, recs) ∧
        recs ≠ [] :=
  guess_polyline_format_sound [0, 0, 0, 0] [0] [4] ⟨0, 4⟩ (by decide)

end HypermillPolyline
